import Mathlib

/-!
# Verification of `JBA::shared_ptr` (src/Resources/SmartPointersLib/SmartPointers.h)

Shallow embedding of the reference-counted shared-ownership pointer of the
repository.  Heap objects are modelled by identifiers allocated from monotone
counters (so freed identifiers are never reused):

* a `SharedControlBlock` mirrors the C++ class of the same name: a nullable
  owning reference `ref` to the managed value and a counter `refCounter`
  (`_ref` / `_refCounter` in the source);
* a `State` carries the live control blocks and the live `shared_ptr`
  instances as association lists keyed by identifier, plus the list `deleted`
  of block identifiers whose managed value and block have been `delete`d.

Each public operation of the C++ class (default construction, construction
from a raw pointer, construction from a control block, copy construction,
copy assignment, destruction, `get`, `operator*`) is a function on `State`,
translated line by line from the source.  The mutex of the source serializes
every `_refCounter` mutation together with its zero test; correspondingly an
operation here is one atomic step, and concurrent executions are modelled by
arbitrary interleavings, i.e. arbitrary sequences of atomic steps.

Managed values of type `T` are modelled by `Nat` payloads.
-/

namespace JBA

/-- Payload type of the managed values (stands for the template parameter T). -/
abbrev Val := Nat

/-- Association-list lookup by identifier key. -/
def alookup (k : Nat) : List (Nat × α) → Option α
  | [] => none
  | e :: t => if e.1 = k then some e.2 else alookup k t

/-- Rewrite the value stored under key `k` through `g` (in-place field update
of the heap object with address `k`). -/
def updKey (k : Nat) (g : α → α) : List (Nat × α) → List (Nat × α)
  | [] => []
  | e :: t => (if e.1 = k then (e.1, g e.2) else e) :: updKey k g t

/-- Remove the entry with key `k` (deallocation of the heap object `k`). -/
def removeKey (k : Nat) : List (Nat × α) → List (Nat × α)
  | [] => []
  | e :: t => if e.1 = k then removeKey k t else e :: removeKey k t

/-- `class SharedControlBlock`: `_ref` (nullable owning pointer to the managed
value, modelled as `Option Val`) and `_refCounter`.  The mutex member has no
state beyond serializing operations and is represented by the atomicity of the
step functions. -/
structure SharedControlBlock where
  ref : Option Val
  refCounter : Nat
deriving Repr, DecidableEq

/-- Global state: live control blocks and live `shared_ptr` instances keyed by
identifier, the `deleted` log of released blocks (a block is released together
with its managed value, in one `delete _ptr->_ref; delete _ptr;` sequence),
and fresh-identifier counters. -/
structure State where
  blocks : List (Nat × SharedControlBlock)
  ptrs : List (Nat × Option Nat)
  deleted : List Nat
  nextBlock : Nat
  nextPtr : Nat
deriving Repr, DecidableEq

/-- The empty initial state: no blocks, no pointer instances. -/
def State.init : State := ⟨[], [], [], 0, 0⟩

/-- The `_ptr` field of a live `shared_ptr` instance: `some ob` when the
instance `p` is live and holds `ob` (`none` inside being a null `_ptr`). -/
def ptrVal (s : State) (p : Nat) : Option (Option Nat) := alookup p s.ptrs

/-- The live control block with identifier `b`, if any. -/
def blockVal (s : State) (b : Nat) : Option SharedControlBlock := alookup b s.blocks

/-- Number of live `shared_ptr` instances whose `_ptr` references block `b`. -/
def countRefs (b : Nat) : List (Nat × Option Nat) → Nat
  | [] => 0
  | e :: t => (if e.2 = some b then 1 else 0) + countRefs b t

/-- Number of live instances referencing block `b` in state `s`. -/
def refsTo (s : State) (b : Nat) : Nat := countRefs b s.ptrs

/-- `++_ptr->_refCounter` under the block's lock. -/
def incrBlock (s : State) (b : Nat) : State :=
  { s with blocks := updKey b (fun blk => { blk with refCounter := blk.refCounter + 1 }) s.blocks }

/-- `delete _ptr->_ref; delete _ptr;` — the block leaves the live set and is
logged in `deleted` (value and block are released together). -/
def releaseBlock (s : State) (b : Nat) : State :=
  { s with blocks := removeKey b s.blocks
           deleted := s.deleted ++ [b] }

/-- `--_ptr->_refCounter; if(_ptr->_refCounter == 0) { delete _ptr->_ref;
delete _ptr; }` — decrement and zero test in one critical section, as the
`lock_guard` in the destructor and in `operator=` makes them. -/
def decrCheck (s : State) (b : Nat) : State :=
  match alookup b s.blocks with
  | none => s
  | some blk =>
    if blk.refCounter - 1 = 0 then releaseBlock s b
    else { s with blocks :=
            updKey b (fun blk2 => { blk2 with refCounter := blk.refCounter - 1 }) s.blocks }

/-- `shared_ptr() : _ptr(nullptr) {}` — a fresh live instance with null
`_ptr`.  Returns the new state and the new instance's identifier. -/
def mkDefault (s : State) : State × Nat :=
  ({ s with ptrs := s.ptrs ++ [(s.nextPtr, none)]
            nextPtr := s.nextPtr + 1 }, s.nextPtr)

/-- `new SharedControlBlock<T>(p)` — a fresh block with `_refCounter == 0`
wrapping the (possibly null) raw pointer `v`.  Returns the new state and the
new block's identifier. -/
def allocBlock (s : State) (v : Option Val) : State × Nat :=
  ({ s with blocks := s.blocks ++ [(s.nextBlock, ⟨v, 0⟩)]
            nextBlock := s.nextBlock + 1 }, s.nextBlock)

/-- `explicit shared_ptr(SharedControlBlock<T>* sharedBlock)`:
`_ptr = sharedBlock; if(!_ptr) return; ++_ptr->_refCounter;`. -/
def fromBlock (s : State) (ob : Option Nat) : State × Nat :=
  let p := s.nextPtr
  let s1 : State := { s with ptrs := s.ptrs ++ [(p, ob)], nextPtr := p + 1 }
  match ob with
  | none => (s1, p)
  | some b => (incrBlock s1 b, p)

/-- `explicit shared_ptr(T* p)`: `_ptr = new SharedControlBlock<T>(p);
++_ptr->_refCounter;` — note: a control block is allocated unconditionally,
also when `p` is the null pointer. -/
def fromRaw (s : State) (v : Option Val) : State × Nat :=
  let sb := allocBlock s v
  fromBlock sb.1 (some sb.2)

/-- `make_shared<T>(args...)`: `new SharedControlBlock<T>(new T(args...))`
followed by `shared_ptr<T>(block)`. -/
def make_shared (s : State) (v : Val) : State × Nat :=
  let sb := allocBlock s (some v)
  fromBlock sb.1 (some sb.2)

/-- `shared_ptr(const shared_ptr& other)`: `_ptr = other._ptr; if(!_ptr)
return; ++_ptr->_refCounter;`.  If `q` is not a live instance the call cannot
arise in the source language and the state is returned unchanged. -/
def copy (s : State) (q : Nat) : State × Nat :=
  match alookup q s.ptrs with
  | none => (s, s.nextPtr)
  | some ob =>
    let p := s.nextPtr
    let s1 : State := { s with ptrs := s.ptrs ++ [(p, ob)], nextPtr := p + 1 }
    match ob with
    | none => (s1, p)
    | some b => (incrBlock s1 b, p)

/-- Overwrite the `_ptr` field of live instance `p`. -/
def setPtr (s : State) (p : Nat) (ob : Option Nat) : State :=
  { s with ptrs := updKey p (fun _ => ob) s.ptrs }

/-- `shared_ptr& operator=(const shared_ptr& other)`:
`if(this == &other) return *this;` then release of the old block (decrement
under lock, zero test, `delete`), then `_ptr = other._ptr`, then increment of
the adopted block under lock when non-null.  Instance identifiers play the
role of object addresses, so the guard compares identifiers.  If either
instance is not live the call cannot arise and the state is unchanged. -/
def assign (s : State) (p q : Nat) : State :=
  if p = q then s
  else
    match alookup p s.ptrs, alookup q s.ptrs with
    | some obp, some obq =>
      let s1 := match obp with
        | none => s
        | some b => decrCheck s b
      let s2 := setPtr s1 p obq
      match obq with
      | none => s2
      | some b => incrBlock s2 b
    | _, _ => s

/-- `~shared_ptr()`: `if(!_ptr) return;` then decrement under lock and release
at zero; in every case the instance itself ceases to exist. -/
def destroy (s : State) (p : Nat) : State :=
  match alookup p s.ptrs with
  | none => s
  | some none =>
    { s with ptrs := removeKey p s.ptrs }
  | some (some b) =>
    let s1 := decrCheck s b
    { s1 with ptrs := removeKey p s1.ptrs }

/-- `T* get() const { return _ptr ? _ptr->_ref : nullptr; }`. -/
def get (s : State) (p : Nat) : Option Val :=
  match ptrVal s p with
  | some (some b) =>
    match blockVal s b with
    | some blk => blk.ref
    | none => none
  | _ => none

/-- `T& operator*() const { return *_ptr->_ref; }` (and `operator->`,
`return _ptr->_ref;`): the managed value is read with no null test on `_ptr`
nor on `_ptr->_ref`; a `none` result models the undefined null dereference. -/
def deref (s : State) (p : Nat) : Option Val :=
  match ptrVal s p with
  | some (some b) =>
    match blockVal s b with
    | some blk => blk.ref
    | none => none
  | _ => none

/-- Client-visible operations on the pointer library. -/
inductive Op where
  | mkDefault : Op
  | fromRaw : Option Val → Op
  | makeShared : Val → Op
  | copy : Nat → Op
  | assign : Nat → Nat → Op
  | destroy : Nat → Op
deriving Repr, DecidableEq

/-- One atomic step.  The mutex in the source serializes all counter
mutations of one block, so an interleaved concurrent execution is a sequence
of these steps in an arbitrary order. -/
def applyOp (s : State) : Op → State
  | .mkDefault => (mkDefault s).1
  | .fromRaw v => (fromRaw s v).1
  | .makeShared v => (make_shared s v).1
  | .copy q => (copy s q).1
  | .assign p q => assign s p q
  | .destroy p => destroy s p

/-- The state after an arbitrary finite sequence of operations from the empty
initial state. -/
def run (ops : List Op) : State := ops.foldl applyOp State.init

/-!
## Decomposition of `operator=` and the destructor

`operator=` first releases the previously held block and then adopts the
source's block; the destructor releases and then lets the instance die.  The
two phases below decompose both operations, and are proved equal to them.
-/

/-- Release phase shared by `operator=` and `~shared_ptr`: if the old `_ptr`
`obp` is non-null, decrement its counter and release at zero; the instance's
`_ptr` field is then considered cleared. -/
def releasePhase (s : State) (p : Nat) (obp : Option Nat) : State :=
  setPtr (match obp with | none => s | some b => decrCheck s b) p none

/-- Adoption phase of `operator=`: `_ptr = other._ptr` followed by the
increment under lock when the adopted block is non-null. -/
def adoptPhase (s : State) (p : Nat) (obq : Option Nat) : State :=
  match obq with
  | none => setPtr s p none
  | some b => incrBlock (setPtr s p (some b)) b


/-!
## Association-list lemmas
-/

theorem alookup_eq_none {l : List (Nat × α)} {k : Nat} :
    alookup k l = none ↔ ∀ e ∈ l, e.1 ≠ k := by
  induction l with
  | nil => simp [alookup]
  | cons e t ih =>
    by_cases h : e.1 = k <;> simp [alookup, h, ih]

theorem mem_of_alookup {l : List (Nat × α)} {k : Nat} {v : α}
    (h : alookup k l = some v) : (k, v) ∈ l := by
  induction l with
  | nil => simp [alookup] at h
  | cons e t ih =>
    by_cases he : e.1 = k
    · rw [alookup, if_pos he] at h
      have hv : e.2 = v := by injection h
      have : (k, v) = e := by cases e; simp_all
      rw [this]; exact List.mem_cons_self _ _
    · rw [alookup, if_neg he] at h
      exact List.mem_cons.2 (Or.inr (ih h))

theorem alookup_append {l₁ l₂ : List (Nat × α)} {k : Nat} :
    alookup k (l₁ ++ l₂) =
      match alookup k l₁ with
      | some v => some v
      | none => alookup k l₂ := by
  induction l₁ with
  | nil => simp [alookup]
  | cons e t ih =>
    by_cases h : e.1 = k <;> simp [alookup, h, ih]

theorem alookup_updKey {l : List (Nat × α)} {k j : Nat} {g : α → α} :
    alookup k (updKey j g l) =
      if k = j then (alookup k l).map g else alookup k l := by
  induction l with
  | nil => simp [alookup, updKey]
  | cons e t ih =>
    by_cases hj : e.1 = j
    · by_cases hk : e.1 = k
      · subst hj; subst hk; simp [alookup, updKey, ih]
      · have hkj : ¬ k = j := fun h => hk (by rw [hj, ← h])
        have hjk : ¬ j = k := fun h => hkj h.symm
        simp [alookup, updKey, hj, hk, ih, hkj, hjk]
    · by_cases hk : e.1 = k
      · have hkj : ¬ k = j := fun h => hj (by rw [hk, h])
        simp [alookup, updKey, hj, hk, hkj]
      · simp [alookup, updKey, hj, hk, ih]

theorem alookup_removeKey {l : List (Nat × α)} {k j : Nat} :
    alookup k (removeKey j l) =
      if k = j then none else alookup k l := by
  induction l with
  | nil => simp [alookup, removeKey]
  | cons e t ih =>
    by_cases hj : e.1 = j
    · by_cases hk : e.1 = k
      · subst hj; subst hk; simp [removeKey, ih]
      · have hkj : ¬ k = j := fun h => hk (by rw [hj, ← h])
        have hjk : ¬ j = k := fun h => hkj h.symm
        simp [alookup, removeKey, hj, hk, ih, hkj, hjk]
    · by_cases hk : e.1 = k
      · have hkj : ¬ k = j := fun h => hj (by rw [hk, h])
        simp [alookup, removeKey, hj, hk, hkj]
      · simp [alookup, removeKey, hj, hk, ih]

theorem keys_updKey {l : List (Nat × α)} {j : Nat} {g : α → α} :
    (updKey j g l).map Prod.fst = l.map Prod.fst := by
  induction l with
  | nil => simp [updKey]
  | cons e t ih =>
    by_cases hj : e.1 = j <;> simp [updKey, hj, ih]

theorem removeKey_sublist {l : List (Nat × α)} {j : Nat} :
    (removeKey j l).Sublist l := by
  induction l with
  | nil => simp [removeKey]
  | cons e t ih =>
    by_cases hj : e.1 = j
    · simp only [removeKey, hj, if_pos]
      exact ih.cons e
    · simp only [removeKey, hj, if_neg, not_false_iff]
      exact ih.cons₂ e

theorem updKey_of_forall_ne {l : List (Nat × α)} {j : Nat} {g : α → α}
    (h : ∀ e ∈ l, e.1 ≠ j) : updKey j g l = l := by
  induction l with
  | nil => simp [updKey]
  | cons e t ih =>
    have he : e.1 ≠ j := h e (by simp)
    simp [updKey, he, ih fun e' he' => h e' (by simp [he'])]

theorem removeKey_of_forall_ne {l : List (Nat × α)} {j : Nat}
    (h : ∀ e ∈ l, e.1 ≠ j) : removeKey j l = l := by
  induction l with
  | nil => simp [removeKey]
  | cons e t ih =>
    have he : e.1 ≠ j := h e (by simp)
    simp [removeKey, he, ih fun e' he' => h e' (by simp [he'])]

theorem updKey_append {l₁ l₂ : List (Nat × α)} {j : Nat} {g : α → α} :
    updKey j g (l₁ ++ l₂) = updKey j g l₁ ++ updKey j g l₂ := by
  induction l₁ with
  | nil => simp [updKey]
  | cons e t ih => simp [updKey, ih]

theorem updKey_updKey {l : List (Nat × α)} {j : Nat} {v₁ v₂ : α} :
    updKey j (fun _ => v₂) (updKey j (fun _ => v₁) l) = updKey j (fun _ => v₂) l := by
  induction l with
  | nil => simp [updKey]
  | cons e t ih =>
    by_cases hj : e.1 = j <;> simp [updKey, hj, ih]

theorem removeKey_updKey {l : List (Nat × α)} {j : Nat} {g : α → α} :
    removeKey j (updKey j g l) = removeKey j l := by
  induction l with
  | nil => simp [updKey, removeKey]
  | cons e t ih =>
    by_cases hj : e.1 = j <;> simp [updKey, removeKey, hj, ih]

theorem countRefs_append {l₁ l₂ : List (Nat × Option Nat)} {b : Nat} :
    countRefs b (l₁ ++ l₂) = countRefs b l₁ + countRefs b l₂ := by
  induction l₁ with
  | nil => simp [countRefs]
  | cons e t ih => simp [countRefs, ih]; ring

theorem countRefs_eq_zero {l : List (Nat × Option Nat)} {b : Nat} :
    countRefs b l = 0 ↔ ∀ e ∈ l, e.2 ≠ some b := by
  induction l with
  | nil => simp [countRefs]
  | cons e t ih =>
    by_cases h : e.2 = some b <;> simp [countRefs, h, ih]

theorem one_le_countRefs {l : List (Nat × Option Nat)} {e : Nat × Option Nat} {b : Nat}
    (hm : e ∈ l) (hb : e.2 = some b) : 1 ≤ countRefs b l := by
  induction l with
  | nil => simp at hm
  | cons e' t ih =>
    rcases List.mem_cons.mp hm with hm | hm
    · subst hm; simp [countRefs, hb]
    · have := ih hm
      simp [countRefs]; omega

theorem countRefs_updKey (b : Nat) (w : Option Nat)
    {l : List (Nat × Option Nat)} {p : Nat} {ob : Option Nat}
    (hn : (l.map Prod.fst).Nodup) (hp : alookup p l = some ob) :
    countRefs b (updKey p (fun _ => w) l) + (if ob = some b then 1 else 0)
      = countRefs b l + (if w = some b then 1 else 0) := by
  induction l with
  | nil => simp [alookup] at hp
  | cons e t ih =>
    simp only [List.map_cons, List.nodup_cons] at hn
    by_cases he : e.1 = p
    · rw [alookup, if_pos he] at hp
      have hob : e.2 = ob := by injection hp
      have ht : updKey p (fun _ => w) t = t := by
        refine updKey_of_forall_ne fun e' he' hke => ?_
        have : e.1 ∈ List.map Prod.fst t := by
          rw [he, ← hke]; exact List.mem_map_of_mem Prod.fst he'
        exact hn.1 this
      simp [updKey, he, ht, countRefs, ← hob]
      omega
    · rw [alookup, if_neg he] at hp
      have := ih hn.2 hp
      simp [updKey, he, countRefs]
      omega

theorem countRefs_removeKey (b : Nat)
    {l : List (Nat × Option Nat)} {p : Nat} {ob : Option Nat}
    (hn : (l.map Prod.fst).Nodup) (hp : alookup p l = some ob) :
    countRefs b (removeKey p l) + (if ob = some b then 1 else 0)
      = countRefs b l := by
  induction l with
  | nil => simp [alookup] at hp
  | cons e t ih =>
    simp only [List.map_cons, List.nodup_cons] at hn
    by_cases he : e.1 = p
    · rw [alookup, if_pos he] at hp
      have hob : e.2 = ob := by injection hp
      have ht : removeKey p t = t := by
        refine removeKey_of_forall_ne fun e' he' hke => ?_
        have : e.1 ∈ List.map Prod.fst t := by
          rw [he, ← hke]; exact List.mem_map_of_mem Prod.fst he'
        exact hn.1 this
      simp [removeKey, he, ht, countRefs, ← hob]
      omega
    · rw [alookup, if_neg he] at hp
      have := ih hn.2 hp
      simp [removeKey, he, countRefs]
      omega

theorem alookup_of_mem_nodup {l : List (Nat × α)} {e : Nat × α}
    (hn : (l.map Prod.fst).Nodup) (hm : e ∈ l) : alookup e.1 l = some e.2 := by
  induction l with
  | nil => simp at hm
  | cons e' t ih =>
    simp only [List.map_cons, List.nodup_cons] at hn
    rcases List.mem_cons.mp hm with hm | hm
    · subst hm; simp [alookup]
    · have hne : e'.1 ≠ e.1 := by
        intro hk
        exact hn.1 (hk ▸ List.mem_map_of_mem Prod.fst hm)
      simp [alookup, hne, ih hn.2 hm]

theorem two_le_countRefs {l : List (Nat × Option Nat)} {p₁ p₂ b : Nat}
    (hn : (l.map Prod.fst).Nodup)
    (h₁ : alookup p₁ l = some (some b)) (h₂ : alookup p₂ l = some (some b))
    (hne : p₁ ≠ p₂) : 2 ≤ countRefs b l := by
  have hrem : countRefs b (removeKey p₁ l) + 1 = countRefs b l := by
    have := countRefs_removeKey b hn h₁
    simpa using this
  have h₂' : alookup p₂ (removeKey p₁ l) = some (some b) := by
    rw [alookup_removeKey, if_neg (fun h => hne h.symm)]; exact h₂
  have := one_le_countRefs (mem_of_alookup h₂') rfl
  omega

/-!
## The quiescent-state invariant

`Inv` collects the structural health conditions of a heap of control blocks
and `shared_ptr` instances, including the reference-count invariant `counts`:
the `_refCounter` of every live block equals the number of live instances
whose `_ptr` references it.
-/

structure Inv (s : State) : Prop where
  blocksKeys : (s.blocks.map Prod.fst).Nodup
  ptrsKeys : (s.ptrs.map Prod.fst).Nodup
  blocksLt : ∀ a ∈ s.blocks.map Prod.fst, a < s.nextBlock
  ptrsLt : ∀ a ∈ s.ptrs.map Prod.fst, a < s.nextPtr
  deletedLt : ∀ b ∈ s.deleted, b < s.nextBlock
  deletedNodup : s.deleted.Nodup
  deletedDead : ∀ b ∈ s.deleted, alookup b s.blocks = none
  ptrsValid : ∀ p b, alookup p s.ptrs = some (some b) → (alookup b s.blocks).isSome
  counts : ∀ b blk, alookup b s.blocks = some blk → blk.refCounter = refsTo s b
  countsPos : ∀ b blk, alookup b s.blocks = some blk → 0 < blk.refCounter
  covered : ∀ b, b < s.nextBlock → (alookup b s.blocks).isSome ∨ b ∈ s.deleted

theorem Inv.freshBlock {s : State} (h : Inv s) :
    alookup s.nextBlock s.blocks = none :=
  alookup_eq_none.mpr fun e he =>
    Nat.ne_of_lt (h.blocksLt e.1 (List.mem_map_of_mem Prod.fst he))

theorem Inv.freshPtr {s : State} (h : Inv s) :
    alookup s.nextPtr s.ptrs = none :=
  alookup_eq_none.mpr fun e he =>
    Nat.ne_of_lt (h.ptrsLt e.1 (List.mem_map_of_mem Prod.fst he))

theorem Inv.noRefsToFresh {s : State} (h : Inv s) :
    refsTo s s.nextBlock = 0 := by
  refine countRefs_eq_zero.mpr fun e he hb => ?_
  have hl : alookup e.1 s.ptrs = some e.2 := alookup_of_mem_nodup h.ptrsKeys he
  have := h.ptrsValid e.1 s.nextBlock (hb ▸ hl)
  rw [h.freshBlock] at this
  simp at this

theorem Inv.init : Inv State.init := by
  refine ⟨?_, ?_, ?_, ?_, ?_, ?_, ?_, ?_, ?_, ?_, ?_⟩ <;>
    simp [State.init, alookup]

theorem alookup_append_some {l₁ l₂ : List (Nat × α)} {k : Nat} {v : α}
    (h : alookup k l₁ = some v) : alookup k (l₁ ++ l₂) = some v := by
  rw [alookup_append, h]

theorem alookup_append_none {l₁ l₂ : List (Nat × α)} {k : Nat}
    (h : alookup k l₁ = none) : alookup k (l₁ ++ l₂) = alookup k l₂ := by
  rw [alookup_append, h]

theorem isSome_alookup_updKey {l : List (Nat × α)} {k j : Nat} {g : α → α} :
    (alookup k (updKey j g l)).isSome = (alookup k l).isSome := by
  rw [alookup_updKey]
  by_cases h : k = j
  · cases halt : alookup k l <;> simp [h, halt]
  · simp [h]

theorem nodup_append_singleton {l : List Nat} {a : Nat}
    (hn : l.Nodup) (ha : a ∉ l) : (l ++ [a]).Nodup :=
  List.nodup_append.2 ⟨hn, List.nodup_singleton a,
    fun _ hx hxa => ha ((List.mem_singleton.mp hxa) ▸ hx)⟩

/-!
## Invariant preservation, operation by operation
-/

theorem fromRaw_eq {s : State} (h : Inv s) (v : Option Val) :
    fromRaw s v =
      (⟨s.blocks ++ [(s.nextBlock, ⟨v, 1⟩)],
        s.ptrs ++ [(s.nextPtr, some s.nextBlock)],
        s.deleted, s.nextBlock + 1, s.nextPtr + 1⟩, s.nextPtr) := by
  have hfresh : ∀ e ∈ s.blocks, e.1 ≠ s.nextBlock := fun e he =>
    Nat.ne_of_lt (h.blocksLt e.1 (List.mem_map_of_mem Prod.fst he))
  simp [fromRaw, allocBlock, fromBlock, incrBlock, updKey_append,
        updKey_of_forall_ne hfresh, updKey]

theorem make_shared_eq {s : State} (v : Val) :
    make_shared s v = fromRaw s (some v) := rfl

theorem inv_mkDefault {s : State} (h : Inv s) : Inv (mkDefault s).1 := by
  have hpfresh : s.nextPtr ∉ s.ptrs.map Prod.fst := fun hm =>
    Nat.lt_irrefl _ (h.ptrsLt _ hm)
  refine ⟨h.blocksKeys, ?_, h.blocksLt, ?_, h.deletedLt, h.deletedNodup,
          h.deletedDead, ?_, ?_, h.countsPos, h.covered⟩
  · simp only [mkDefault, List.map_append, List.map_cons, List.map_nil]
    exact nodup_append_singleton h.ptrsKeys hpfresh
  · intro a ha
    simp only [mkDefault, List.map_append, List.map_cons, List.map_nil,
      List.mem_append, List.mem_singleton] at ha
    rcases ha with ha | ha
    · exact Nat.lt_succ_of_lt (h.ptrsLt a ha)
    · simp [mkDefault, ha]
  · intro p b hp
    rw [show (mkDefault s).1.ptrs = s.ptrs ++ [(s.nextPtr, none)] from rfl,
        alookup_append] at hp
    cases hps : alookup p s.ptrs with
    | some ob => rw [hps] at hp; cases hp; exact h.ptrsValid p b hps
    | none =>
      rw [hps] at hp
      simp only [alookup] at hp
      by_cases hpe : s.nextPtr = p <;> simp [hpe] at hp
  · intro b blk hb
    have hrt : refsTo (mkDefault s).1 b = refsTo s b := by
      show countRefs b (s.ptrs ++ [(s.nextPtr, none)]) = _
      simp [countRefs_append, countRefs, refsTo]
    rw [hrt]
    exact h.counts b blk hb

theorem inv_fromRaw {s : State} (h : Inv s) (v : Option Val) :
    Inv (fromRaw s v).1 := by
  rw [fromRaw_eq h]
  have hbfresh : s.nextBlock ∉ s.blocks.map Prod.fst := fun hm =>
    Nat.lt_irrefl _ (h.blocksLt _ hm)
  have hpfresh : s.nextPtr ∉ s.ptrs.map Prod.fst := fun hm =>
    Nat.lt_irrefl _ (h.ptrsLt _ hm)
  have hblk : ∀ b, b ≠ s.nextBlock →
      alookup b (s.blocks ++ [(s.nextBlock, (⟨v, 1⟩ : SharedControlBlock))]) = alookup b s.blocks := by
    intro b hb
    have hb' : ¬ s.nextBlock = b := Ne.symm hb
    rw [alookup_append]
    cases hbs : alookup b s.blocks with
    | some blk => rfl
    | none => simp [alookup, hb']
  have hnb : alookup s.nextBlock (s.blocks ++ [(s.nextBlock, (⟨v, 1⟩ : SharedControlBlock))])
      = some ⟨v, 1⟩ := by
    rw [alookup_append, h.freshBlock]
    simp [alookup]
  have hcnt : ∀ b, countRefs b (s.ptrs ++ [(s.nextPtr, some s.nextBlock)])
      = countRefs b s.ptrs + (if b = s.nextBlock then 1 else 0) := by
    intro b
    rw [countRefs_append]
    by_cases hb : b = s.nextBlock
    · subst hb; simp [countRefs]
    · have hb' : ¬ s.nextBlock = b := Ne.symm hb
      simp [countRefs, hb, hb']
  refine ⟨?_, ?_, ?_, ?_, ?_, h.deletedNodup, ?_, ?_, ?_, ?_, ?_⟩
  · simp only [List.map_append, List.map_cons, List.map_nil]
    exact nodup_append_singleton h.blocksKeys hbfresh
  · simp only [List.map_append, List.map_cons, List.map_nil]
    exact nodup_append_singleton h.ptrsKeys hpfresh
  · intro a ha
    simp only [List.map_append, List.map_cons, List.map_nil, List.mem_append,
      List.mem_singleton] at ha
    rcases ha with ha | ha
    · exact Nat.lt_succ_of_lt (h.blocksLt a ha)
    · simp [ha]
  · intro a ha
    simp only [List.map_append, List.map_cons, List.map_nil, List.mem_append,
      List.mem_singleton] at ha
    rcases ha with ha | ha
    · exact Nat.lt_succ_of_lt (h.ptrsLt a ha)
    · simp [ha]
  · exact fun b hb => Nat.lt_succ_of_lt (h.deletedLt b hb)
  · intro b hb
    have hlt := h.deletedLt b hb
    rw [hblk b (Nat.ne_of_lt hlt)]
    exact h.deletedDead b hb
  · intro p b hp
    rw [alookup_append] at hp
    cases hps : alookup p s.ptrs with
    | some ob =>
      rw [hps] at hp; cases hp
      have hv := h.ptrsValid p b hps
      cases hbs : alookup b s.blocks with
      | some blk => rw [alookup_append_some hbs]; rfl
      | none => rw [hbs] at hv; simp at hv
    | none =>
      rw [hps] at hp
      simp only [alookup] at hp
      by_cases hpe : s.nextPtr = p
      · simp only [hpe, if_pos] at hp
        cases hp
        rw [hnb]; rfl
      · simp [hpe] at hp
  · intro b blk hb
    show blk.refCounter = countRefs b (s.ptrs ++ [(s.nextPtr, some s.nextBlock)])
    rw [hcnt]
    by_cases hbn : b = s.nextBlock
    · subst hbn
      rw [hnb] at hb
      cases hb
      have h0 : countRefs s.nextBlock s.ptrs = 0 := h.noRefsToFresh
      simp [h0]
    · rw [hblk b hbn] at hb
      simp [hbn, h.counts b blk hb, refsTo]
  · intro b blk hb
    by_cases hbn : b = s.nextBlock
    · subst hbn; rw [hnb] at hb; cases hb; simp
    · rw [hblk b hbn] at hb
      exact h.countsPos b blk hb
  · intro b hb
    have hb2 : b < s.nextBlock + 1 := hb
    by_cases hbn : b = s.nextBlock
    · subst hbn; rw [hnb]; left; rfl
    · have hlt : b < s.nextBlock := by omega
      rw [hblk b hbn]
      exact h.covered b hlt

theorem copy_eq_some {s : State} {q b : Nat}
    (hq : alookup q s.ptrs = some (some b)) :
    copy s q =
      (⟨updKey b (fun blk => { blk with refCounter := blk.refCounter + 1 }) s.blocks,
        s.ptrs ++ [(s.nextPtr, some b)], s.deleted, s.nextBlock, s.nextPtr + 1⟩,
       s.nextPtr) := by
  simp [copy, hq, incrBlock]

theorem inv_copy {s : State} (h : Inv s) (q : Nat) : Inv (copy s q).1 := by
  cases hq : alookup q s.ptrs with
  | none =>
    have : (copy s q).1 = s := by simp [copy, hq]
    rw [this]; exact h
  | some ob =>
    cases ob with
    | none =>
      have : (copy s q).1 = (mkDefault s).1 := by simp [copy, hq, mkDefault]
      rw [this]; exact inv_mkDefault h
    | some b =>
      rw [copy_eq_some hq]
      have hbsome := h.ptrsValid q b hq
      obtain ⟨blk, hblk⟩ : ∃ blk, alookup b s.blocks = some blk := by
        cases hx : alookup b s.blocks with
        | none => rw [hx] at hbsome; simp at hbsome
        | some y => exact ⟨y, rfl⟩
      have hpfresh : s.nextPtr ∉ s.ptrs.map Prod.fst := fun hm =>
        Nat.lt_irrefl _ (h.ptrsLt _ hm)
      have hcnt : ∀ b', countRefs b' (s.ptrs ++ [(s.nextPtr, some b)])
          = countRefs b' s.ptrs + (if b' = b then 1 else 0) := by
        intro b'
        rw [countRefs_append]
        by_cases hb' : b' = b
        · subst hb'; simp [countRefs]
        · have hb'' : ¬ b = b' := Ne.symm hb'
          simp [countRefs, hb', hb'']
      refine ⟨?_, ?_, ?_, ?_, h.deletedLt, h.deletedNodup, ?_, ?_, ?_, ?_, ?_⟩
      · show ((updKey b _ s.blocks).map Prod.fst).Nodup
        rw [keys_updKey]; exact h.blocksKeys
      · simp only [List.map_append, List.map_cons, List.map_nil]
        exact nodup_append_singleton h.ptrsKeys hpfresh
      · intro a ha
        rw [keys_updKey] at ha
        exact h.blocksLt a ha
      · intro a ha
        simp only [List.map_append, List.map_cons, List.map_nil, List.mem_append,
          List.mem_singleton] at ha
        rcases ha with ha | ha
        · exact Nat.lt_succ_of_lt (h.ptrsLt a ha)
        · simp [ha]
      · intro b' hb'
        show alookup b' (updKey b _ s.blocks) = none
        have hdead := h.deletedDead b' hb'
        rw [alookup_updKey]
        by_cases hbb : b' = b
        · subst hbb; simp [hdead]
        · simp [hbb, hdead]
      · intro p' b' hp'
        show (alookup b' (updKey b _ s.blocks)).isSome
        rw [isSome_alookup_updKey]
        rw [show (⟨updKey b (fun blk => { blk with refCounter := blk.refCounter + 1 }) s.blocks,
          s.ptrs ++ [(s.nextPtr, some b)], s.deleted, s.nextBlock, s.nextPtr + 1⟩ : State).ptrs
            = s.ptrs ++ [(s.nextPtr, some b)] from rfl, alookup_append] at hp'
        cases hps : alookup p' s.ptrs with
        | some ob' =>
          rw [hps] at hp'; cases hp'
          exact h.ptrsValid p' b' hps
        | none =>
          rw [hps] at hp'
          simp only [alookup] at hp'
          by_cases hpe : s.nextPtr = p'
          · simp only [hpe, if_pos] at hp'
            cases hp'
            rw [hblk]; rfl
          · simp [hpe] at hp'
      · intro b' blk' hb'
        show blk'.refCounter = countRefs b' (s.ptrs ++ [(s.nextPtr, some b)])
        rw [hcnt]
        rw [show (⟨updKey b (fun blk => { blk with refCounter := blk.refCounter + 1 }) s.blocks,
          s.ptrs ++ [(s.nextPtr, some b)], s.deleted, s.nextBlock, s.nextPtr + 1⟩ : State).blocks
            = updKey b (fun blk => { blk with refCounter := blk.refCounter + 1 }) s.blocks from rfl,
          alookup_updKey] at hb'
        by_cases hbb : b' = b
        · subst hbb
          rw [if_pos rfl, hblk] at hb'
          cases hb'
          have := h.counts b' blk hblk
          simp [this, refsTo]
        · rw [if_neg hbb] at hb'
          simp [hbb, h.counts b' blk' hb', refsTo]
      · intro b' blk' hb'
        show 0 < blk'.refCounter
        rw [show (⟨updKey b (fun blk => { blk with refCounter := blk.refCounter + 1 }) s.blocks,
          s.ptrs ++ [(s.nextPtr, some b)], s.deleted, s.nextBlock, s.nextPtr + 1⟩ : State).blocks
            = updKey b (fun blk => { blk with refCounter := blk.refCounter + 1 }) s.blocks from rfl,
          alookup_updKey] at hb'
        by_cases hbb : b' = b
        · subst hbb
          rw [if_pos rfl, hblk] at hb'
          cases hb'
          simp
        · rw [if_neg hbb] at hb'
          exact h.countsPos b' blk' hb'
      · intro b' hb'
        have := h.covered b' hb'
        rcases this with hlive | hdel
        · left
          show (alookup b' (updKey b _ s.blocks)).isSome
          rw [isSome_alookup_updKey]; exact hlive
        · right; exact hdel

theorem assign_eq {s : State} {p q : Nat} {obp obq : Option Nat}
    (hpq : p ≠ q)
    (hp : alookup p s.ptrs = some obp) (hq : alookup q s.ptrs = some obq) :
    assign s p q = adoptPhase (releasePhase s p obp) p obq := by
  unfold assign
  rw [if_neg hpq, hp, hq]
  cases obq with
  | none => simp [adoptPhase, releasePhase, setPtr, updKey_updKey]
  | some b => simp [adoptPhase, releasePhase, setPtr, updKey_updKey, incrBlock]

theorem destroy_eq {s : State} {p : Nat} {obp : Option Nat}
    (hp : alookup p s.ptrs = some obp) :
    destroy s p =
      { releasePhase s p obp with
        ptrs := removeKey p (releasePhase s p obp).ptrs } := by
  unfold destroy
  rw [hp]
  cases obp with
  | none => simp [releasePhase, setPtr, removeKey_updKey]
  | some b => simp [releasePhase, setPtr, removeKey_updKey]

theorem decrCheck_ptrs {s : State} {b : Nat} : (decrCheck s b).ptrs = s.ptrs := by
  unfold decrCheck
  cases alookup b s.blocks with
  | none => rfl
  | some blk =>
    by_cases hz : blk.refCounter - 1 = 0 <;> simp [hz, releaseBlock]

theorem decrCheck_counters {s : State} {b : Nat} :
    (decrCheck s b).nextBlock = s.nextBlock ∧ (decrCheck s b).nextPtr = s.nextPtr := by
  unfold decrCheck
  cases alookup b s.blocks with
  | none => exact ⟨rfl, rfl⟩
  | some blk =>
    by_cases hz : blk.refCounter - 1 = 0 <;> simp [hz, releaseBlock]

theorem releasePhase_ptrs {s : State} {p : Nat} {obp : Option Nat} :
    (releasePhase s p obp).ptrs = updKey p (fun _ => none) s.ptrs := by
  cases obp with
  | none => rfl
  | some b =>
    show (setPtr (decrCheck s b) p none).ptrs = _
    simp [setPtr, decrCheck_ptrs]

theorem inv_setPtrNone {s : State} {p : Nat} (h : Inv s)
    (hp : alookup p s.ptrs = some none) : Inv (setPtr s p none) := by
  refine ⟨h.blocksKeys, ?_, h.blocksLt, ?_, h.deletedLt, h.deletedNodup,
          h.deletedDead, ?_, ?_, h.countsPos, h.covered⟩
  · show ((updKey p (fun _ => none) s.ptrs).map Prod.fst).Nodup
    rw [keys_updKey]; exact h.ptrsKeys
  · intro a ha
    rw [show (setPtr s p none).ptrs = updKey p (fun _ => none) s.ptrs from rfl,
      keys_updKey] at ha
    exact h.ptrsLt a ha
  · intro p' b hp'
    rw [show (setPtr s p none).ptrs = updKey p (fun _ => none) s.ptrs from rfl,
      alookup_updKey] at hp'
    by_cases hpe : p' = p
    · subst hpe
      rw [if_pos rfl, hp] at hp'
      simp at hp'
    · rw [if_neg hpe] at hp'
      exact h.ptrsValid p' b hp'
  · intro b blk hb
    have hcr := countRefs_updKey b (none : Option Nat) h.ptrsKeys hp
    have : refsTo (setPtr s p none) b = refsTo s b := by
      show countRefs b (updKey p (fun _ => none) s.ptrs) = countRefs b s.ptrs
      simpa using hcr
    rw [this]
    exact h.counts b blk hb

theorem inv_removePtrNone {s : State} {p : Nat} (h : Inv s)
    (hp : alookup p s.ptrs = some none) :
    Inv { s with ptrs := removeKey p s.ptrs } := by
  refine ⟨h.blocksKeys, ?_, h.blocksLt, ?_, h.deletedLt, h.deletedNodup,
          h.deletedDead, ?_, ?_, h.countsPos, h.covered⟩
  · exact ((removeKey_sublist).map Prod.fst).nodup h.ptrsKeys
  · intro a ha
    exact h.ptrsLt a (((removeKey_sublist).map Prod.fst).subset ha)
  · intro p' b hp'
    rw [show ({ s with ptrs := removeKey p s.ptrs } : State).ptrs
        = removeKey p s.ptrs from rfl, alookup_removeKey] at hp'
    by_cases hpe : p' = p
    · rw [if_pos hpe] at hp'; cases hp'
    · rw [if_neg hpe] at hp'
      exact h.ptrsValid p' b hp'
  · intro b blk hb
    have hcr := countRefs_removeKey b h.ptrsKeys hp
    have : refsTo { s with ptrs := removeKey p s.ptrs } b = refsTo s b := by
      show countRefs b (removeKey p s.ptrs) = countRefs b s.ptrs
      simpa using hcr
    rw [this]
    exact h.counts b blk hb

theorem inv_releasePhase {s : State} {p : Nat} {obp : Option Nat} (h : Inv s)
    (hp : alookup p s.ptrs = some obp) : Inv (releasePhase s p obp) := by
  cases obp with
  | none => exact inv_setPtrNone h hp
  | some b0 =>
    have hbsome := h.ptrsValid p b0 hp
    obtain ⟨blk0, hblk0⟩ : ∃ blk0, alookup b0 s.blocks = some blk0 := by
      cases hx : alookup b0 s.blocks with
      | none => rw [hx] at hbsome; simp at hbsome
      | some y => exact ⟨y, rfl⟩
    have hcnt0 : blk0.refCounter = refsTo s b0 := h.counts b0 blk0 hblk0
    have hge1 : 1 ≤ refsTo s b0 := one_le_countRefs (mem_of_alookup hp) rfl
    have hb0lt : b0 < s.nextBlock :=
      h.blocksLt b0 (List.mem_map_of_mem Prod.fst (mem_of_alookup hblk0))
    have hb0notdel : b0 ∉ s.deleted := fun hd => by
      rw [h.deletedDead b0 hd] at hblk0; cases hblk0
    show Inv (setPtr (decrCheck s b0) p none)
    have hdc : decrCheck s b0 =
        if blk0.refCounter - 1 = 0 then releaseBlock s b0
        else { s with blocks := updKey b0 (fun blk2 => { blk2 with refCounter := blk0.refCounter - 1 }) s.blocks } := by
      unfold decrCheck
      rw [hblk0]
    rw [hdc]
    by_cases hz : blk0.refCounter - 1 = 0
    · rw [if_pos hz]
      have h1 : refsTo s b0 = 1 := by omega
      have honly : ∀ p', p' ≠ p → alookup p' s.ptrs ≠ some (some b0) := by
        intro p' hne hp'
        have := two_le_countRefs h.ptrsKeys hp hp' (fun hh => hne hh.symm)
        have hr : refsTo s b0 = countRefs b0 s.ptrs := rfl
        omega
      refine ⟨?_, ?_, ?_, ?_, ?_, ?_, ?_, ?_, ?_, ?_, ?_⟩
      · show ((removeKey b0 s.blocks).map Prod.fst).Nodup
        exact ((removeKey_sublist).map Prod.fst).nodup h.blocksKeys
      · show ((updKey p (fun _ => none) s.ptrs).map Prod.fst).Nodup
        rw [keys_updKey]; exact h.ptrsKeys
      · intro a ha
        exact h.blocksLt a (((removeKey_sublist).map Prod.fst).subset ha)
      · intro a ha
        rw [show (setPtr (releaseBlock s b0) p none).ptrs
            = updKey p (fun _ => none) s.ptrs from rfl, keys_updKey] at ha
        exact h.ptrsLt a ha
      · intro b hb
        rcases List.mem_append.mp hb with hb | hb
        · exact h.deletedLt b hb
        · rw [List.mem_singleton.mp hb]; exact hb0lt
      · exact nodup_append_singleton h.deletedNodup hb0notdel
      · intro b hb
        show alookup b (removeKey b0 s.blocks) = none
        rw [alookup_removeKey]
        rcases List.mem_append.mp hb with hb | hb
        · by_cases hbb : b = b0
          · rw [if_pos hbb]
          · rw [if_neg hbb]; exact h.deletedDead b hb
        · rw [List.mem_singleton.mp hb, if_pos rfl]
      · intro p' b hp'
        rw [show (setPtr (releaseBlock s b0) p none).ptrs
            = updKey p (fun _ => none) s.ptrs from rfl, alookup_updKey] at hp'
        by_cases hpe : p' = p
        · subst hpe
          rw [if_pos rfl, hp] at hp'
          simp at hp'
        · rw [if_neg hpe] at hp'
          have hbneq : b ≠ b0 := fun hb => (honly p' hpe) (hb ▸ hp')
          show (alookup b (removeKey b0 s.blocks)).isSome
          rw [alookup_removeKey, if_neg hbneq]
          exact h.ptrsValid p' b hp'
      · intro b blk hb
        rw [show (setPtr (releaseBlock s b0) p none).blocks
            = removeKey b0 s.blocks from rfl, alookup_removeKey] at hb
        by_cases hbb : b = b0
        · rw [if_pos hbb] at hb; cases hb
        · rw [if_neg hbb] at hb
          have hcr := countRefs_updKey b (none : Option Nat) h.ptrsKeys hp
          have hob : ¬ (some b0 = some b) := by simp; exact fun hh => hbb hh.symm
          have : refsTo (setPtr (releaseBlock s b0) p none) b = refsTo s b := by
            show countRefs b (updKey p (fun _ => none) s.ptrs) = countRefs b s.ptrs
            simp [hob] at hcr
            simpa using hcr
          rw [this]
          exact h.counts b blk hb
      · intro b blk hb
        rw [show (setPtr (releaseBlock s b0) p none).blocks
            = removeKey b0 s.blocks from rfl, alookup_removeKey] at hb
        by_cases hbb : b = b0
        · rw [if_pos hbb] at hb; cases hb
        · rw [if_neg hbb] at hb
          exact h.countsPos b blk hb
      · intro b hb
        have hb' : b < s.nextBlock := hb
        rcases h.covered b hb' with hlive | hdel
        · by_cases hbb : b = b0
          · right
            show b ∈ s.deleted ++ [b0]
            rw [hbb]; exact List.mem_append.mpr (Or.inr (List.mem_singleton.mpr rfl))
          · left
            show (alookup b (removeKey b0 s.blocks)).isSome
            rw [alookup_removeKey, if_neg hbb]
            exact hlive
        · right
          exact List.mem_append.mpr (Or.inl hdel)
    · rw [if_neg hz]
      refine ⟨?_, ?_, ?_, ?_, h.deletedLt, h.deletedNodup, ?_, ?_, ?_, ?_, ?_⟩
      · show ((updKey b0 _ s.blocks).map Prod.fst).Nodup
        rw [keys_updKey]; exact h.blocksKeys
      · show ((updKey p (fun _ => none) s.ptrs).map Prod.fst).Nodup
        rw [keys_updKey]; exact h.ptrsKeys
      · intro a ha
        have ha2 : a ∈ List.map Prod.fst (updKey b0 (fun blk2 => { blk2 with refCounter := blk0.refCounter - 1 }) s.blocks) := ha
        rw [keys_updKey] at ha2
        exact h.blocksLt a ha2
      · intro a ha
        have ha2 : a ∈ List.map Prod.fst (updKey p (fun _ => none) s.ptrs) := ha
        rw [keys_updKey] at ha2
        exact h.ptrsLt a ha2
      · intro b hb
        show alookup b (updKey b0 _ s.blocks) = none
        have hdead := h.deletedDead b hb
        rw [alookup_updKey]
        by_cases hbb : b = b0
        · subst hbb; simp [hdead]
        · simp [hbb, hdead]
      · intro p' b hp'
        have hp2 : alookup p' (updKey p (fun _ => none) s.ptrs) = some (some b) := hp'
        rw [alookup_updKey] at hp2
        by_cases hpe : p' = p
        · subst hpe
          rw [if_pos rfl, hp] at hp2
          simp at hp2
        · rw [if_neg hpe] at hp2
          show (alookup b (updKey b0 _ s.blocks)).isSome
          rw [isSome_alookup_updKey]
          exact h.ptrsValid p' b hp2
      · intro b blk hb
        have hb2 : alookup b (updKey b0 (fun blk2 => { blk2 with refCounter := blk0.refCounter - 1 }) s.blocks) = some blk := hb
        rw [alookup_updKey] at hb2
        have hcr := countRefs_updKey b (none : Option Nat) h.ptrsKeys hp
        by_cases hbb : b = b0
        · subst hbb
          rw [if_pos rfl, hblk0] at hb2
          cases hb2
          show blk0.refCounter - 1 = countRefs b (updKey p (fun _ => none) s.ptrs)
          simp at hcr
          have hr : refsTo s b = countRefs b s.ptrs := rfl
          omega
        · rw [if_neg hbb] at hb2
          have hob : ¬ (some b0 = some b) := by simp; exact fun hh => hbb hh.symm
          show blk.refCounter = countRefs b (updKey p (fun _ => none) s.ptrs)
          have hcr2 : countRefs b (updKey p (fun _ => none) s.ptrs) = countRefs b s.ptrs := by
            simp [hob] at hcr
            simpa using hcr
          rw [hcr2]
          exact h.counts b blk hb2
      · intro b blk hb
        have hb2 : alookup b (updKey b0 (fun blk2 => { blk2 with refCounter := blk0.refCounter - 1 }) s.blocks) = some blk := hb
        rw [alookup_updKey] at hb2
        by_cases hbb : b = b0
        · subst hbb
          rw [if_pos rfl, hblk0] at hb2
          cases hb2
          show 0 < blk0.refCounter - 1
          omega
        · rw [if_neg hbb] at hb2
          exact h.countsPos b blk hb2
      · intro b hb
        have hb2 : b < s.nextBlock := hb
        rcases h.covered b hb2 with hlive | hdel
        · left
          show (alookup b (updKey b0 _ s.blocks)).isSome
          rw [isSome_alookup_updKey]
          exact hlive
        · right; exact hdel

theorem inv_adoptPhase {s : State} {p : Nat} {obq : Option Nat} (h : Inv s)
    (hp : alookup p s.ptrs = some none)
    (hv : ∀ b, obq = some b → (alookup b s.blocks).isSome) :
    Inv (adoptPhase s p obq) := by
  cases obq with
  | none => exact inv_setPtrNone h hp
  | some b =>
    have hbsome := hv b rfl
    obtain ⟨blk, hblk⟩ : ∃ blk, alookup b s.blocks = some blk := by
      cases hx : alookup b s.blocks with
      | none => rw [hx] at hbsome; simp at hbsome
      | some y => exact ⟨y, rfl⟩
    refine ⟨?_, ?_, ?_, ?_, h.deletedLt, h.deletedNodup, ?_, ?_, ?_, ?_, ?_⟩
    · show ((updKey b _ s.blocks).map Prod.fst).Nodup
      rw [keys_updKey]; exact h.blocksKeys
    · show ((updKey p (fun _ => some b) s.ptrs).map Prod.fst).Nodup
      rw [keys_updKey]; exact h.ptrsKeys
    · intro a ha
      have ha2 : a ∈ List.map Prod.fst (updKey b (fun blk => { blk with refCounter := blk.refCounter + 1 }) s.blocks) := ha
      rw [keys_updKey] at ha2
      exact h.blocksLt a ha2
    · intro a ha
      have ha2 : a ∈ List.map Prod.fst (updKey p (fun _ => some b) s.ptrs) := ha
      rw [keys_updKey] at ha2
      exact h.ptrsLt a ha2
    · intro b' hb'
      show alookup b' (updKey b _ s.blocks) = none
      have hdead := h.deletedDead b' hb'
      rw [alookup_updKey]
      by_cases hbb : b' = b
      · subst hbb; simp [hdead]
      · simp [hbb, hdead]
    · intro p' b' hp'
      have hp2 : alookup p' (updKey p (fun _ => some b) s.ptrs) = some (some b') := hp'
      rw [alookup_updKey] at hp2
      show (alookup b' (updKey b _ s.blocks)).isSome
      rw [isSome_alookup_updKey]
      by_cases hpe : p' = p
      · subst hpe
        rw [if_pos rfl, hp] at hp2
        simp only [Option.map_some'] at hp2
        cases hp2
        exact hbsome
      · rw [if_neg hpe] at hp2
        exact h.ptrsValid p' b' hp2
    · intro b' blk' hb'
      have hb2 : alookup b' (updKey b (fun blk => { blk with refCounter := blk.refCounter + 1 }) s.blocks) = some blk' := hb'
      rw [alookup_updKey] at hb2
      have hcr := countRefs_updKey b' (some b : Option Nat) h.ptrsKeys hp
      by_cases hbb : b' = b
      · subst hbb
        rw [if_pos rfl, hblk] at hb2
        cases hb2
        show blk.refCounter + 1 = countRefs b' (updKey p (fun _ => some b') s.ptrs)
        simp at hcr
        have hr : refsTo s b' = countRefs b' s.ptrs := rfl
        have hc := h.counts b' blk hblk
        omega
      · rw [if_neg hbb] at hb2
        have hob : ¬ (some b = some b') := by simp; exact fun hh => hbb hh.symm
        show blk'.refCounter = countRefs b' (updKey p (fun _ => some b) s.ptrs)
        have hcr2 : countRefs b' (updKey p (fun _ => some b) s.ptrs) = countRefs b' s.ptrs := by
          simp [hob] at hcr
          simpa using hcr
        rw [hcr2]
        exact h.counts b' blk' hb2
    · intro b' blk' hb'
      have hb2 : alookup b' (updKey b (fun blk => { blk with refCounter := blk.refCounter + 1 }) s.blocks) = some blk' := hb'
      rw [alookup_updKey] at hb2
      by_cases hbb : b' = b
      · subst hbb
        rw [if_pos rfl, hblk] at hb2
        cases hb2
        show 0 < blk.refCounter + 1
        omega
      · rw [if_neg hbb] at hb2
        exact h.countsPos b' blk' hb2
    · intro b' hb'
      have hb2 : b' < s.nextBlock := hb'
      rcases h.covered b' hb2 with hlive | hdel
      · left
        show (alookup b' (updKey b _ s.blocks)).isSome
        rw [isSome_alookup_updKey]
        exact hlive
      · right; exact hdel

theorem inv_destroy {s : State} (h : Inv s) (p : Nat) : Inv (destroy s p) := by
  cases hp : alookup p s.ptrs with
  | none =>
    have : destroy s p = s := by unfold destroy; rw [hp]
    rw [this]; exact h
  | some obp =>
    rw [destroy_eq hp]
    have hmid := inv_releasePhase h hp
    have hpmid : alookup p (releasePhase s p obp).ptrs = some none := by
      rw [releasePhase_ptrs, alookup_updKey, if_pos rfl, hp]
      rfl
    exact inv_removePtrNone hmid hpmid

theorem inv_assign {s : State} (h : Inv s) (p q : Nat) : Inv (assign s p q) := by
  by_cases hpq : p = q
  · have : assign s p q = s := by unfold assign; rw [if_pos hpq]
    rw [this]; exact h
  · cases hp : alookup p s.ptrs with
    | none =>
      have : assign s p q = s := by
        unfold assign; rw [if_neg hpq, hp]
      rw [this]; exact h
    | some obp =>
      cases hq : alookup q s.ptrs with
      | none =>
        have : assign s p q = s := by
          unfold assign; rw [if_neg hpq, hp, hq]
        rw [this]; exact h
      | some obq =>
        rw [assign_eq hpq hp hq]
        have hmid := inv_releasePhase h hp
        have hpmid : alookup p (releasePhase s p obp).ptrs = some none := by
          rw [releasePhase_ptrs, alookup_updKey, if_pos rfl, hp]
          rfl
        have hqmid : alookup q (releasePhase s p obp).ptrs = some obq := by
          rw [releasePhase_ptrs, alookup_updKey,
            if_neg (fun hh => hpq (hh.symm : p = q)), hq]
        exact inv_adoptPhase hmid hpmid
          (fun b hb => hmid.ptrsValid q b (hb ▸ hqmid))

theorem inv_applyOp {s : State} (h : Inv s) (op : Op) : Inv (applyOp s op) := by
  cases op with
  | mkDefault => exact inv_mkDefault h
  | fromRaw v => exact inv_fromRaw h v
  | makeShared v =>
    show Inv (make_shared s v).1
    rw [make_shared_eq]
    exact inv_fromRaw h (some v)
  | copy q => exact inv_copy h q
  | assign p q => exact inv_assign h p q
  | destroy p => exact inv_destroy h p

theorem inv_foldl {s : State} (h : Inv s) (ops : List Op) :
    Inv (List.foldl applyOp s ops) := by
  induction ops generalizing s with
  | nil => exact h
  | cons op t ih => exact ih (inv_applyOp h op)

/-- Every state reachable by a finite operation sequence from the empty
initial state satisfies the invariant. -/
theorem inv_run (ops : List Op) : Inv (run ops) :=
  inv_foldl Inv.init ops

/-!
## Effect lemmas for the claim proofs
-/

theorem adoptPhase_ptrs {s : State} {p : Nat} {obq : Option Nat} :
    (adoptPhase s p obq).ptrs = updKey p (fun _ => obq) s.ptrs := by
  cases obq <;> rfl

theorem adoptPhase_deleted {s : State} {p : Nat} {obq : Option Nat} :
    (adoptPhase s p obq).deleted = s.deleted := by
  cases obq <;> rfl

theorem adoptPhase_next {s : State} {p : Nat} {obq : Option Nat} :
    (adoptPhase s p obq).nextBlock = s.nextBlock ∧
    (adoptPhase s p obq).nextPtr = s.nextPtr := by
  cases obq <;> exact ⟨rfl, rfl⟩

theorem releasePhase_next {s : State} {p : Nat} {obp : Option Nat} :
    (releasePhase s p obp).nextBlock = s.nextBlock ∧
    (releasePhase s p obp).nextPtr = s.nextPtr := by
  cases obp with
  | none => exact ⟨rfl, rfl⟩
  | some b =>
    exact ⟨decrCheck_counters.1, decrCheck_counters.2⟩

theorem decrCheck_lookup_self {s : State} {b : Nat} {blk : SharedControlBlock}
    (hblk : alookup b s.blocks = some blk) :
    alookup b (decrCheck s b).blocks =
      if blk.refCounter - 1 = 0 then none
      else some ⟨blk.ref, blk.refCounter - 1⟩ := by
  unfold decrCheck
  rw [hblk]
  by_cases hz : blk.refCounter - 1 = 0
  · simp only [hz, if_pos]
    show alookup b (removeKey b s.blocks) = none
    rw [alookup_removeKey, if_pos rfl]
  · simp only [hz, if_neg, not_false_iff]
    show alookup b (updKey b _ s.blocks) = _
    rw [alookup_updKey, if_pos rfl, hblk]
    rfl

theorem decrCheck_lookup_other {s : State} {b b' : Nat} (hne : b' ≠ b) :
    alookup b' (decrCheck s b).blocks = alookup b' s.blocks := by
  unfold decrCheck
  cases alookup b s.blocks with
  | none => rfl
  | some blk =>
    by_cases hz : blk.refCounter - 1 = 0
    · simp only [hz, if_pos]
      show alookup b' (removeKey b s.blocks) = _
      rw [alookup_removeKey, if_neg hne]
    · simp only [hz, if_neg, not_false_iff]
      show alookup b' (updKey b _ s.blocks) = _
      rw [alookup_updKey, if_neg hne]

theorem decrCheck_deleted {s : State} {b : Nat} {blk : SharedControlBlock}
    (hblk : alookup b s.blocks = some blk) :
    (decrCheck s b).deleted =
      if blk.refCounter - 1 = 0 then s.deleted ++ [b] else s.deleted := by
  unfold decrCheck
  rw [hblk]
  by_cases hz : blk.refCounter - 1 = 0 <;> simp [hz, releaseBlock]

/-- In any invariant state, a block identifier that was ever allocated is in
the deleted log precisely when no live instance references it. -/
theorem deleted_iff_refsTo_zero {s : State} {b : Nat} (h : Inv s)
    (hlt : b < s.nextBlock) : b ∈ s.deleted ↔ refsTo s b = 0 := by
  constructor
  · intro hb
    refine countRefs_eq_zero.mpr fun e he hb2 => ?_
    have hl := alookup_of_mem_nodup h.ptrsKeys he
    have hval := h.ptrsValid e.1 b (hb2 ▸ hl)
    rw [h.deletedDead b hb] at hval
    simp at hval
  · intro h0
    rcases h.covered b hlt with hlive | hdel
    · obtain ⟨blk, hblk⟩ := Option.isSome_iff_exists.mp hlive
      have hc := h.counts b blk hblk
      have hpos := h.countsPos b blk hblk
      rw [h0] at hc
      omega
    · exact hdel

/-- Effect of one destructor call on an instance referencing block `b`:
the instance disappears, and the block's counter is decremented with release
exactly at the `1 → 0` transition. -/
theorem destroy_spec {s : State} {p b : Nat} {blk : SharedControlBlock}
    (hp : alookup p s.ptrs = some (some b))
    (hblk : alookup b s.blocks = some blk)
    (hpos : 0 < blk.refCounter) :
    (destroy s p).ptrs = removeKey p s.ptrs ∧
    (blk.refCounter = 1 →
      (destroy s p).deleted = s.deleted ++ [b] ∧
      alookup b (destroy s p).blocks = none) ∧
    (blk.refCounter ≠ 1 →
      (destroy s p).deleted = s.deleted ∧
      alookup b (destroy s p).blocks = some ⟨blk.ref, blk.refCounter - 1⟩) ∧
    (∀ b', b' ≠ b → alookup b' (destroy s p).blocks = alookup b' s.blocks) ∧
    (destroy s p).nextBlock = s.nextBlock ∧
    (destroy s p).nextPtr = s.nextPtr := by
  rw [destroy_eq hp]
  have hptrs : (releasePhase s p (some b)).ptrs = updKey p (fun _ => none) s.ptrs :=
    releasePhase_ptrs
  have hblocks : (releasePhase s p (some b)).blocks = (decrCheck s b).blocks := rfl
  have hdel : (releasePhase s p (some b)).deleted = (decrCheck s b).deleted := rfl
  refine ⟨?_, ?_, ?_, ?_, ?_, ?_⟩
  · show removeKey p (releasePhase s p (some b)).ptrs = removeKey p s.ptrs
    rw [hptrs, removeKey_updKey]
  · intro h1
    constructor
    · show (releasePhase s p (some b)).deleted = _
      rw [hdel, decrCheck_deleted hblk, if_pos (by omega)]
    · show alookup b (releasePhase s p (some b)).blocks = none
      rw [hblocks, decrCheck_lookup_self hblk, if_pos (by omega)]
  · intro h1
    constructor
    · show (releasePhase s p (some b)).deleted = _
      rw [hdel, decrCheck_deleted hblk, if_neg (by omega)]
    · show alookup b (releasePhase s p (some b)).blocks = _
      rw [hblocks, decrCheck_lookup_self hblk, if_neg (by omega)]
  · intro b' hne
    show alookup b' (releasePhase s p (some b)).blocks = _
    rw [hblocks, decrCheck_lookup_other hne]
  · show (releasePhase s p (some b)).nextBlock = s.nextBlock
    exact releasePhase_next.1
  · show (releasePhase s p (some b)).nextPtr = s.nextPtr
    exact releasePhase_next.2

theorem get_eq {s : State} {p b : Nat} {blk : SharedControlBlock}
    (hp : ptrVal s p = some (some b)) (hb : blockVal s b = some blk) :
    get s p = blk.ref := by
  simp only [get, hp, hb]

theorem get_none_of_null {s : State} {p : Nat}
    (hp : ptrVal s p = some none) : get s p = none := by
  simp only [get, hp]

theorem deref_eq {s : State} {p b : Nat} {blk : SharedControlBlock}
    (hp : ptrVal s p = some (some b)) (hb : blockVal s b = some blk) :
    deref s p = blk.ref := by
  simp only [deref, hp, hb]

theorem deref_none_of_null {s : State} {p : Nat}
    (hp : ptrVal s p = some none) : deref s p = none := by
  simp only [deref, hp]

/-!
## The claims
-/

/-- C2: at every quiescent point reachable by any finite sequence of
constructions, copies, assignments and destructions, the `_refCounter` of
every live control block equals the number of live `shared_ptr` instances
referencing that block. -/
theorem C2_count_invariant (ops : List Op) :
    ∀ b blk, blockVal (run ops) b = some blk →
      blk.refCounter = refsTo (run ops) b :=
  fun b blk hb => (inv_run ops).counts b blk hb

theorem C2_count_invariant_witness :
    blockVal (run [Op.fromRaw (some 42), Op.copy 0]) 0
      = some ⟨some 42, 2⟩ ∧
    (⟨some 42, 2⟩ : SharedControlBlock).refCounter
      = refsTo (run [Op.fromRaw (some 42), Op.copy 0]) 0 :=
  ⟨by decide, C2_count_invariant [Op.fromRaw (some 42), Op.copy 0] 0 ⟨some 42, 2⟩ (by decide)⟩

/-- C5: self-assignment `p = p` is a no-op in every state, empty or not: the
whole state is unchanged, so in particular the referenced block, every
block's counter, and the deletion log are unchanged and nothing is
released. -/
theorem C5_self_assignment_noop (s : State) (p : Nat) :
    assign s p p = s ∧
    ptrVal (assign s p p) p = ptrVal s p ∧
    (∀ b, blockVal (assign s p p) b = blockVal s b) ∧
    (assign s p p).deleted = s.deleted := by
  have hs : assign s p p = s := by unfold assign; rw [if_pos rfl]
  exact ⟨hs, by rw [hs], fun b => by rw [hs], by rw [hs]⟩

/-- C4 counterexample: constructing a `shared_ptr` from the null raw pointer
does NOT yield an empty pointer.  At the initial state, the constructed
instance holds control block 0 (its `_ptr` is `some 0`, not the null
`none`): `explicit shared_ptr(T* p)` allocates a `SharedControlBlock`
unconditionally. -/
theorem C4_null_raw_counterexample :
    ptrVal (fromRaw State.init none).1 (fromRaw State.init none).2
      = some (some 0) ∧
    ptrVal (fromRaw State.init none).1 (fromRaw State.init none).2
      ≠ some none := by
  decide

/-- C4 amended: constructing a `shared_ptr` from the null raw pointer yields
a NON-empty pointer holding a freshly allocated control block whose managed
reference is null and whose counter is 1; `get()` on it still returns the
null pointer. -/
theorem C4_null_raw_amended {s : State} (h : Inv s) :
    ptrVal (fromRaw s none).1 (fromRaw s none).2 = some (some s.nextBlock) ∧
    blockVal (fromRaw s none).1 s.nextBlock = some ⟨none, 1⟩ ∧
    get (fromRaw s none).1 (fromRaw s none).2 = none := by
  rw [fromRaw_eq h]
  have hptr : alookup s.nextPtr (s.ptrs ++ [(s.nextPtr, some s.nextBlock)])
      = some (some s.nextBlock) := by
    rw [alookup_append, h.freshPtr]
    simp [alookup]
  have hblk : alookup s.nextBlock
      (s.blocks ++ [(s.nextBlock, (⟨none, 1⟩ : SharedControlBlock))])
      = some ⟨none, 1⟩ := by
    rw [alookup_append, h.freshBlock]
    simp [alookup]
  refine ⟨hptr, hblk, ?_⟩
  have hptr2 : ptrVal (⟨s.blocks ++ [(s.nextBlock, ⟨none, 1⟩)],
      s.ptrs ++ [(s.nextPtr, some s.nextBlock)], s.deleted,
      s.nextBlock + 1, s.nextPtr + 1⟩ : State) s.nextPtr
      = some (some s.nextBlock) := hptr
  have hblk2 : blockVal (⟨s.blocks ++ [(s.nextBlock, ⟨none, 1⟩)],
      s.ptrs ++ [(s.nextPtr, some s.nextBlock)], s.deleted,
      s.nextBlock + 1, s.nextPtr + 1⟩ : State) s.nextBlock
      = some ⟨none, 1⟩ := hblk
  exact get_eq hptr2 hblk2

theorem C4_null_raw_amended_witness :
    ptrVal (fromRaw State.init none).1 (fromRaw State.init none).2
      = some (some State.init.nextBlock) ∧
    blockVal (fromRaw State.init none).1 State.init.nextBlock = some ⟨none, 1⟩ ∧
    get (fromRaw State.init none).1 (fromRaw State.init none).2 = none :=
  C4_null_raw_amended Inv.init

/-- C7: `get` returns the raw pointer to the managed value of the referenced
block, and the null pointer when the instance's `_ptr` is null; on a freshly
default-constructed instance it returns null.  `get` is a pure function of
the state (no side effects, no allocation, no failure). -/
theorem C7_get_contract (s : State) (h : Inv s) :
    get (mkDefault s).1 (mkDefault s).2 = none ∧
    (∀ p, ptrVal s p = some none → get s p = none) ∧
    (∀ p b blk, ptrVal s p = some (some b) → blockVal s b = some blk →
      get s p = blk.ref) := by
  refine ⟨?_, fun p hp => get_none_of_null hp, fun p b blk hp hb => get_eq hp hb⟩
  have hptr : ptrVal (mkDefault s).1 (mkDefault s).2 = some none := by
    show alookup s.nextPtr (s.ptrs ++ [(s.nextPtr, none)]) = some none
    rw [alookup_append, h.freshPtr]
    simp [alookup]
  exact get_none_of_null hptr

theorem C7_get_contract_witness :
    get (mkDefault (run [])).1 (mkDefault (run [])).2 = none ∧
    get (run [Op.mkDefault]) 0 = none ∧
    get (run [Op.fromRaw (some 42)]) 0 = some 42 :=
  ⟨(C7_get_contract (run []) (inv_run [])).1,
   (C7_get_contract (run [Op.mkDefault]) (inv_run [Op.mkDefault])).2.1 0 (by decide),
   (C7_get_contract (run [Op.fromRaw (some 42)])
      (inv_run [Op.fromRaw (some 42)])).2.2 0 0 ⟨some 42, 1⟩ (by decide) (by decide)⟩

/-- C8: `operator*` and `operator->` read `_ptr->_ref` with no null test:
under the precondition that the instance is non-empty and the managed value
non-null they return exactly the managed value (agreeing with `get`), and on
an instance with null `_ptr` the read is an undefined null dereference,
modelled by the `none` result of `deref`. -/
theorem C8_deref_unguarded (s : State) :
    (∀ p b blk v, ptrVal s p = some (some b) → blockVal s b = some blk →
      blk.ref = some v → deref s p = some v ∧ deref s p = get s p) ∧
    (∀ p, ptrVal s p = some none → deref s p = none) := by
  refine ⟨fun p b blk v hp hb hv => ?_, fun p hp => deref_none_of_null hp⟩
  rw [deref_eq hp hb, get_eq hp hb]
  exact ⟨hv, rfl⟩

theorem C8_deref_unguarded_witness :
    deref (run [Op.fromRaw (some 42)]) 0 = some 42 ∧
    deref (run [Op.fromRaw (some 42)]) 0 = get (run [Op.fromRaw (some 42)]) 0 ∧
    deref (run [Op.mkDefault]) 0 = none :=
  ⟨((C8_deref_unguarded (run [Op.fromRaw (some 42)])).1 0 0 ⟨some 42, 1⟩ 42
      (by decide) (by decide) (by decide)).1,
   ((C8_deref_unguarded (run [Op.fromRaw (some 42)])).1 0 0 ⟨some 42, 1⟩ 42
      (by decide) (by decide) (by decide)).2,
   (C8_deref_unguarded (run [Op.mkDefault])).2 0 (by decide)⟩

/-- C6: the factory `make_shared` is equivalent to direct construction from a
raw value: it first creates a `SharedControlBlock` with counter 0 around the
new value, then the block constructor increments the counter to 1; the
produced state equals the one of `shared_ptr(T*)` construction, and for any
value `v` (in particular 42) the new pointer satisfies `get() = v` with
counter 1. -/
theorem C6_factory_equivalence (s : State) (v : Val) (h : Inv s) :
    make_shared s v = fromRaw s (some v) ∧
    blockVal (allocBlock s (some v)).1 (allocBlock s (some v)).2
      = some ⟨some v, 0⟩ ∧
    blockVal (make_shared s v).1 s.nextBlock = some ⟨some v, 1⟩ ∧
    ptrVal (make_shared s v).1 (make_shared s v).2 = some (some s.nextBlock) ∧
    get (make_shared s v).1 (make_shared s v).2 = some v := by
  have halloc : blockVal (allocBlock s (some v)).1 (allocBlock s (some v)).2
      = some ⟨some v, 0⟩ := by
    show alookup s.nextBlock
      (s.blocks ++ [(s.nextBlock, (⟨some v, 0⟩ : SharedControlBlock))]) = _
    rw [alookup_append, h.freshBlock]
    simp [alookup]
  rw [make_shared_eq, fromRaw_eq h]
  have hblk : alookup s.nextBlock
      (s.blocks ++ [(s.nextBlock, (⟨some v, 1⟩ : SharedControlBlock))])
      = some ⟨some v, 1⟩ := by
    rw [alookup_append, h.freshBlock]
    simp [alookup]
  have hptr : alookup s.nextPtr (s.ptrs ++ [(s.nextPtr, some s.nextBlock)])
      = some (some s.nextBlock) := by
    rw [alookup_append, h.freshPtr]
    simp [alookup]
  refine ⟨rfl, halloc, hblk, hptr, ?_⟩
  have hptr2 : ptrVal (⟨s.blocks ++ [(s.nextBlock, ⟨some v, 1⟩)],
      s.ptrs ++ [(s.nextPtr, some s.nextBlock)], s.deleted,
      s.nextBlock + 1, s.nextPtr + 1⟩ : State) s.nextPtr
      = some (some s.nextBlock) := hptr
  have hblk2 : blockVal (⟨s.blocks ++ [(s.nextBlock, ⟨some v, 1⟩)],
      s.ptrs ++ [(s.nextPtr, some s.nextBlock)], s.deleted,
      s.nextBlock + 1, s.nextPtr + 1⟩ : State) s.nextBlock
      = some ⟨some v, 1⟩ := hblk
  exact get_eq hptr2 hblk2

theorem C6_factory_equivalence_witness :
    make_shared State.init 42 = fromRaw State.init (some 42) ∧
    blockVal (allocBlock State.init (some 42)).1 (allocBlock State.init (some 42)).2
      = some ⟨some 42, 0⟩ ∧
    blockVal (make_shared State.init 42).1 State.init.nextBlock
      = some ⟨some 42, 1⟩ ∧
    ptrVal (make_shared State.init 42).1 (make_shared State.init 42).2
      = some (some State.init.nextBlock) ∧
    get (make_shared State.init 42).1 (make_shared State.init 42).2 = some 42 :=
  C6_factory_equivalence State.init 42 Inv.init

/-- C1: single release.  Along every finite operation sequence from the
initial state: the deletion log never repeats a block (each managed value and
block is deleted at most once); a deleted block is referenced by no live
instance (release happens only once the last referencing instance is gone,
and no instance references it afterwards); and once every instance has been
destroyed, every allocated block has been released exactly once. -/
theorem C1_single_release (ops : List Op) :
    (run ops).deleted.Nodup ∧
    (∀ b ∈ (run ops).deleted, refsTo (run ops) b = 0) ∧
    ((run ops).ptrs = [] →
      ∀ b, b < (run ops).nextBlock → List.count b (run ops).deleted = 1) := by
  have h := inv_run ops
  refine ⟨h.deletedNodup, ?_, ?_⟩
  · intro b hb
    exact (deleted_iff_refsTo_zero h (h.deletedLt b hb)).mp hb
  · intro hempty b hlt
    have hz : refsTo (run ops) b = 0 := by
      show countRefs b (run ops).ptrs = 0
      rw [hempty]
      rfl
    have hdel : b ∈ (run ops).deleted := (deleted_iff_refsTo_zero h hlt).mpr hz
    exact List.count_eq_one_of_mem h.deletedNodup hdel

theorem C1_single_release_witness :
    (run [Op.fromRaw (some 42), Op.destroy 0]).deleted.Nodup ∧
    refsTo (run [Op.fromRaw (some 42), Op.destroy 0]) 0 = 0 ∧
    List.count 0 (run [Op.fromRaw (some 42), Op.destroy 0]).deleted = 1 :=
  ⟨(C1_single_release [Op.fromRaw (some 42), Op.destroy 0]).1,
   (C1_single_release [Op.fromRaw (some 42), Op.destroy 0]).2.1 0 (by decide),
   (C1_single_release [Op.fromRaw (some 42), Op.destroy 0]).2.2 (by decide) 0
     (by decide)⟩

/-- C10: assigning between two distinct instances that already share the same
non-null block is not caught by the self-assignment guard (which compares
object identity only), yet leaves the block's count unchanged and releases
nothing: the count is at least 2 beforehand, so the decrement cannot reach
zero, and the subsequent increment restores it. -/
theorem C10_shared_block_assign (s : State) (p q b : Nat) (h : Inv s)
    (hpq : p ≠ q)
    (hp : ptrVal s p = some (some b)) (hq : ptrVal s q = some (some b)) :
    (∀ blk, blockVal s b = some blk → 2 ≤ blk.refCounter) ∧
    blockVal (assign s p q) b = blockVal s b ∧
    (assign s p q).deleted = s.deleted ∧
    refsTo (assign s p q) b = refsTo s b := by
  have hp' : alookup p s.ptrs = some (some b) := hp
  have hq' : alookup q s.ptrs = some (some b) := hq
  have hbsome := h.ptrsValid p b hp'
  obtain ⟨blk, hblk⟩ : ∃ blk, alookup b s.blocks = some blk := by
    cases hx : alookup b s.blocks with
    | none => rw [hx] at hbsome; simp at hbsome
    | some y => exact ⟨y, rfl⟩
  have h2 : 2 ≤ refsTo s b := two_le_countRefs h.ptrsKeys hp' hq' hpq
  have hc : blk.refCounter = refsTo s b := h.counts b blk hblk
  have hz : ¬ (blk.refCounter - 1 = 0) := by omega
  rw [assign_eq hpq hp' hq']
  have hmidblk : alookup b (releasePhase s p (some b)).blocks
      = some ⟨blk.ref, blk.refCounter - 1⟩ := by
    show alookup b (decrCheck s b).blocks = _
    rw [decrCheck_lookup_self hblk, if_neg hz]
  have hmidptr : alookup p (releasePhase s p (some b)).ptrs = some none := by
    rw [releasePhase_ptrs, alookup_updKey, if_pos rfl, hp']
    rfl
  refine ⟨?_, ?_, ?_, ?_⟩
  · intro blk2 hblk2
    have : blk2 = blk := by
      have hblk2' : alookup b s.blocks = some blk2 := hblk2
      rw [hblk] at hblk2'
      injection hblk2'.symm
    rw [this]
    omega
  · show alookup b (adoptPhase (releasePhase s p (some b)) p (some b)).blocks
      = alookup b s.blocks
    show alookup b (updKey b (fun blk => { blk with refCounter := blk.refCounter + 1 })
      (releasePhase s p (some b)).blocks) = _
    rw [alookup_updKey, if_pos rfl, hmidblk]
    have he : blk.refCounter - 1 + 1 = blk.refCounter := by omega
    rw [hblk]
    simp [he]
  · show (adoptPhase (releasePhase s p (some b)) p (some b)).deleted = s.deleted
    rw [adoptPhase_deleted]
    show (decrCheck s b).deleted = s.deleted
    rw [decrCheck_deleted hblk, if_neg hz]
  · show countRefs b (adoptPhase (releasePhase s p (some b)) p (some b)).ptrs
      = countRefs b s.ptrs
    rw [adoptPhase_ptrs, releasePhase_ptrs]
    have hcr1 := countRefs_updKey b (none : Option Nat) h.ptrsKeys hp'
    have hmk : (updKey p (fun _ => (none : Option Nat)) s.ptrs).map Prod.fst
        = s.ptrs.map Prod.fst := keys_updKey
    have hnd2 : ((updKey p (fun _ => (none : Option Nat)) s.ptrs).map Prod.fst).Nodup := by
      rw [hmk]; exact h.ptrsKeys
    have hpm : alookup p (updKey p (fun _ => (none : Option Nat)) s.ptrs) = some none := by
      rw [alookup_updKey, if_pos rfl, hp']
      rfl
    have hcr2 := countRefs_updKey b (some b : Option Nat) hnd2 hpm
    simp at hcr1 hcr2
    omega

theorem C10_shared_block_assign_witness :
    2 ≤ (⟨some 7, 2⟩ : SharedControlBlock).refCounter ∧
    blockVal (assign (run [Op.fromRaw (some 7), Op.copy 0]) 0 1) 0
      = blockVal (run [Op.fromRaw (some 7), Op.copy 0]) 0 ∧
    (assign (run [Op.fromRaw (some 7), Op.copy 0]) 0 1).deleted
      = (run [Op.fromRaw (some 7), Op.copy 0]).deleted ∧
    refsTo (assign (run [Op.fromRaw (some 7), Op.copy 0]) 0 1) 0
      = refsTo (run [Op.fromRaw (some 7), Op.copy 0]) 0 :=
  have C := C10_shared_block_assign (run [Op.fromRaw (some 7), Op.copy 0]) 0 1 0
    (inv_run [Op.fromRaw (some 7), Op.copy 0]) (by decide) (by decide) (by decide)
  ⟨C.1 ⟨some 7, 2⟩ (by decide), C.2.1, C.2.2.1, C.2.2.2⟩

/-- C3: after `p = q` for distinct instances, both instances hold the
source's block reference (or both null); the previously held block, if any,
is in the deletion log precisely when no live instance references it any
longer, and when it survives and differs from the adopted block its counter
has gone down by exactly one. -/
theorem C3_assignment_contract (s : State) (p q : Nat) (obp obq : Option Nat)
    (h : Inv s) (hpq : p ≠ q)
    (hp : ptrVal s p = some obp) (hq : ptrVal s q = some obq) :
    ptrVal (assign s p q) p = some obq ∧
    ptrVal (assign s p q) q = some obq ∧
    (∀ b0, obp = some b0 →
      (b0 ∈ (assign s p q).deleted ↔ refsTo (assign s p q) b0 = 0) ∧
      (obq ≠ some b0 → ∀ blk blk', blockVal s b0 = some blk →
        blockVal (assign s p q) b0 = some blk' →
        blk'.refCounter + 1 = blk.refCounter)) := by
  have hp' : alookup p s.ptrs = some obp := hp
  have hq' : alookup q s.ptrs = some obq := hq
  have hqp : ¬ (q = p) := fun hh => hpq hh.symm
  rw [assign_eq hpq hp' hq']
  have hmidp : alookup p (releasePhase s p obp).ptrs = some none := by
    rw [releasePhase_ptrs, alookup_updKey, if_pos rfl, hp']
    rfl
  have hmid : Inv (releasePhase s p obp) := inv_releasePhase h hp'
  have hqmid : alookup q (releasePhase s p obp).ptrs = some obq := by
    rw [releasePhase_ptrs, alookup_updKey, if_neg hqp, hq']
  have hfin : Inv (adoptPhase (releasePhase s p obp) p obq) :=
    inv_adoptPhase hmid hmidp (fun b hb => hmid.ptrsValid q b (hb ▸ hqmid))
  refine ⟨?_, ?_, ?_⟩
  · show alookup p (adoptPhase (releasePhase s p obp) p obq).ptrs = some obq
    rw [adoptPhase_ptrs, alookup_updKey, if_pos rfl, hmidp]
    rfl
  · show alookup q (adoptPhase (releasePhase s p obp) p obq).ptrs = some obq
    rw [adoptPhase_ptrs, alookup_updKey, if_neg hqp, hqmid]
  · intro b0 hb0
    subst hb0
    have hbsome := h.ptrsValid p b0 hp'
    obtain ⟨blk0, hblk0⟩ : ∃ blk0, alookup b0 s.blocks = some blk0 := by
      cases hx : alookup b0 s.blocks with
      | none => rw [hx] at hbsome; simp at hbsome
      | some y => exact ⟨y, rfl⟩
    have hlt : b0 < s.nextBlock :=
      h.blocksLt b0 (List.mem_map_of_mem Prod.fst (mem_of_alookup hblk0))
    constructor
    · have hnb : (adoptPhase (releasePhase s p (some b0)) p obq).nextBlock
          = s.nextBlock := by
        rw [adoptPhase_next.1, releasePhase_next.1]
      exact deleted_iff_refsTo_zero hfin (by rw [hnb]; exact hlt)
    · intro hneq blk blk' hblk hblk'
      have hblk2 : alookup b0 s.blocks = some blk := hblk
      have hbe : blk = blk0 := by
        rw [hblk0] at hblk2
        injection hblk2.symm
      subst hbe
      have hpos := h.countsPos b0 blk hblk0
      have hfb : alookup b0 (adoptPhase (releasePhase s p (some b0)) p obq).blocks
          = alookup b0 (decrCheck s b0).blocks := by
        cases obq with
        | none => rfl
        | some bq =>
          have hbq : ¬ (b0 = bq) := fun hh => hneq (by rw [hh])
          show alookup b0 (updKey bq
            (fun blk => { blk with refCounter := blk.refCounter + 1 })
            (releasePhase s p (some b0)).blocks) = _
          rw [alookup_updKey, if_neg hbq]
          rfl
      have hblk3 : alookup b0 (adoptPhase (releasePhase s p (some b0)) p obq).blocks
          = some blk' := hblk'
      rw [hfb, decrCheck_lookup_self hblk0] at hblk3
      by_cases hz : blk.refCounter - 1 = 0
      · rw [if_pos hz] at hblk3
        cases hblk3
      · rw [if_neg hz] at hblk3
        have : (⟨blk.ref, blk.refCounter - 1⟩ : SharedControlBlock) = blk' := by
          injection hblk3
        rw [← this]
        show blk.refCounter - 1 + 1 = blk.refCounter
        omega

theorem C3_assignment_contract_witness :
    ptrVal (assign (run [Op.fromRaw (some 7), Op.copy 0, Op.fromRaw (some 9)]) 0 2) 0
      = some (some 1) ∧
    ptrVal (assign (run [Op.fromRaw (some 7), Op.copy 0, Op.fromRaw (some 9)]) 0 2) 2
      = some (some 1) ∧
    (0 ∈ (assign (run [Op.fromRaw (some 7), Op.copy 0, Op.fromRaw (some 9)]) 0 2).deleted
      ↔ refsTo (assign (run [Op.fromRaw (some 7), Op.copy 0, Op.fromRaw (some 9)]) 0 2) 0 = 0) ∧
    (⟨some 7, 1⟩ : SharedControlBlock).refCounter + 1
      = (⟨some 7, 2⟩ : SharedControlBlock).refCounter :=
  have C := C3_assignment_contract
    (run [Op.fromRaw (some 7), Op.copy 0, Op.fromRaw (some 9)]) 0 2
    (some 0) (some 1)
    (inv_run [Op.fromRaw (some 7), Op.copy 0, Op.fromRaw (some 9)])
    (by decide) (by decide) (by decide)
  ⟨C.1, C.2.1, (C.2.2 0 rfl).1,
   (C.2.2 0 rfl).2 (by decide) ⟨some 7, 2⟩ ⟨some 7, 1⟩ (by decide) (by decide)⟩

/-- C9: unique releaser.  The mutex makes each decrement-with-zero-test one
critical section, modelled here as one atomic step; a concurrent execution of
the destructors of all instances referencing block `b` is then an arbitrary
order `l` of those steps.  Along every such order, the block is not yet
released after any proper prefix and is released exactly by the final
decrement: precisely one of the decrementing threads observes the transition
to zero. -/
theorem C9_unique_releaser (l : List Nat) (s : State) (b : Nat)
    (blk : SharedControlBlock) (h : Inv s) (hblk : blockVal s b = some blk)
    (hl : ∀ p ∈ l, ptrVal s p = some (some b)) (hnd : l.Nodup)
    (hlen : l.length = blk.refCounter) :
    ∀ i, i ≤ l.length →
      (b ∈ (List.foldl destroy s (l.take i)).deleted ↔ i = l.length) := by
  induction l generalizing s blk with
  | nil =>
    intro i hi
    have hblk' : alookup b s.blocks = some blk := hblk
    have hpos := h.countsPos b blk hblk'
    exfalso
    simp at hlen
    omega
  | cons p t ih =>
    intro i hi
    have hp := hl p (by simp)
    have hp' : alookup p s.ptrs = some (some b) := hp
    have hblk' : alookup b s.blocks = some blk := hblk
    have hpos := h.countsPos b blk hblk'
    have hds := destroy_spec hp' hblk' hpos
    obtain ⟨hptrs, hrelone, hrelmany, hother, hnb, hnp⟩ := hds
    cases i with
    | zero =>
      simp only [List.take_zero, List.foldl_nil]
      have hnotdel : b ∉ s.deleted := fun hmem => by
        rw [h.deletedDead b hmem] at hblk'
        cases hblk'
      simp [hnotdel]
    | succ j =>
      have hji : j ≤ t.length := by simp at hi; omega
      rw [List.take_succ_cons, List.foldl_cons]
      by_cases ht : t = []
      · subst ht
        have hj0 : j = 0 := by simpa using hji
        subst hj0
        simp only [List.take_nil, List.foldl_nil]
        have h1 : blk.refCounter = 1 := by simp at hlen; omega
        rw [(hrelone h1).1]
        simp
      · have htlen : 1 ≤ t.length := by
          cases t with
          | nil => exact absurd rfl ht
          | cons a t2 => simp
        have h2 : 2 ≤ blk.refCounter := by simp at hlen; omega
        have hne1 : blk.refCounter ≠ 1 := by omega
        have hinv2 : Inv (destroy s p) := inv_destroy h p
        have hblknew : blockVal (destroy s p) b
            = some ⟨blk.ref, blk.refCounter - 1⟩ := (hrelmany hne1).2
        have hl2 : ∀ p' ∈ t, ptrVal (destroy s p) p' = some (some b) := by
          intro p' hmem
          have hne : p' ≠ p := fun hh => by
            subst hh
            exact (List.nodup_cons.mp hnd).1 hmem
          show alookup p' (destroy s p).ptrs = _
          rw [hptrs, alookup_removeKey, if_neg hne]
          exact hl p' (by simp [hmem])
        have hnd2 := (List.nodup_cons.mp hnd).2
        have hlen2 : t.length
            = (⟨blk.ref, blk.refCounter - 1⟩ : SharedControlBlock).refCounter := by
          show t.length = blk.refCounter - 1
          simp at hlen
          omega
        have hih := ih (destroy s p) ⟨blk.ref, blk.refCounter - 1⟩ hinv2 hblknew
          hl2 hnd2 hlen2 j hji
        rw [hih]
        simp

theorem C9_unique_releaser_witness :
    ¬ (0 ∈ (List.foldl destroy (run [Op.fromRaw (some 7), Op.copy 0])
        ([1, 0].take 1)).deleted) ∧
    (0 ∈ (List.foldl destroy (run [Op.fromRaw (some 7), Op.copy 0])
        ([1, 0].take 2)).deleted) :=
  have C := C9_unique_releaser [1, 0] (run [Op.fromRaw (some 7), Op.copy 0]) 0
    ⟨some 7, 2⟩ (inv_run [Op.fromRaw (some 7), Op.copy 0]) (by decide)
    (by decide) (by decide) (by decide)
  ⟨fun hmem => by
      have := (C 1 (by decide)).mp hmem
      simp at this,
   (C 2 (by decide)).mpr rfl⟩

end JBA
